import Mathlib

/-!
Verification of the mutual-fund-analyser holdings/portfolio analysis pipeline.

The definitions below are shallow embeddings of the Python modules
`mfa/analysis/analyzers/utils/data_processor_utils.py`,
`mfa/analysis/analyzers/holdings/data_processor.py`,
`mfa/analysis/analyzers/holdings/aggregator.py`,
`mfa/analysis/analyzers/utils/aggregator_utils.py`,
`mfa/analysis/analyzers/utils/output_builder_utils.py`,
`mfa/analysis/analyzers/holdings/output_builder.py`, and
`mfa/analysis/analyzers/portfolio/output_builder.py`.
Python floats are modelled as exact rationals, Python strings as Lean
strings (character lists), and Python dicts as insertion-ordered key
lists paired with total lookup functions.
-/

namespace MFA

/-- Python whitespace (`str.strip`, `re` `\s` in Unicode mode): the ASCII
whitespace characters plus the Unicode space characters recognised by
`str.isspace`. -/
def isPySpace (c : Char) : Bool :=
  let n := c.toNat
  n = 0x20 || (0x9 <= n && n <= 0xD) || (0x1C <= n && n <= 0x1F) ||
  n = 0x85 || n = 0xA0 || n = 0x1680 || (0x2000 <= n && n <= 0x200A) ||
  n = 0x2028 || n = 0x2029 || n = 0x202F || n = 0x205F || n = 0x3000

/-- Python `str.strip()` on a character list. -/
def pyStripList (l : List Char) : List Char :=
  ((l.dropWhile isPySpace).reverse.dropWhile isPySpace).reverse

/-- Python `str.strip()`. -/
def pyStrip (s : String) : String :=
  ⟨pyStripList s.data⟩

/-- Python `str.upper()` (ASCII letters; the company names and exclusion
entries handled by the pipeline are ASCII). -/
def pyUpper (s : String) : String :=
  ⟨s.data.map Char.toUpper⟩

/-- Python `needle in haystack` on strings: substring containment. -/
def strContains (haystack needle : List Char) : Bool :=
  haystack.tails.any (fun t => needle.isPrefixOf t)

/-- ASCII-case-insensitive character match, as used by `re.IGNORECASE`
on the ASCII suffix tokens of the normalizer. -/
def ciEq (a b : Char) : Bool :=
  a.toLower = b.toLower

/-- Strip a case-insensitive token from the front of a reversed character
list: `stripTokenRev rev revTok` returns the remainder when `rev` starts
with `revTok` (the token reversed), compared case-insensitively. -/
def stripTokenRev : List Char → List Char → Option (List Char)
  | rest, [] => some rest
  | [], _ :: _ => none
  | c :: rest, t :: ts => if ciEq c t then stripTokenRev rest ts else none

/-- `\.?` at the current (reversed) position: greedily consume one dot. -/
def stripOptDotRev (rev : List Char) : List Char :=
  match rev with
  | '.' :: rest => rest
  | _ => rev

/-- `\s+` before a token, reversed: drop the maximal whitespace run,
failing when it is empty.  `re.sub` removes the whole run because the
leftmost match of `\s+…$` starts at the first character of the run. -/
def stripWsPlusRev (rev : List Char) : Option (List Char) :=
  let rest := rev.dropWhile isPySpace
  if rest.length = rev.length then none else some rest

/-- One component of a suffix pattern: a literal token (stored reversed)
optionally followed by `\.?` in the original pattern. -/
structure SuffixWord where
  revTok : List Char
  optDot : Bool

/-- Match `(\s+word)+` reversed, right to left over the word list
(which is given in reverse source order). -/
def matchWordsRev : List Char → List SuffixWord → Option (List Char)
  | rev, [] => some rev
  | rev, w :: ws => do
      let rev := if w.optDot then stripOptDotRev rev else rev
      let rev ← stripTokenRev rev w.revTok
      let rev ← stripWsPlusRev rev
      matchWordsRev rev ws

/-- Apply one precompiled suffix pattern `\s+w₁(\.?)\s+w₂(\.?)…\s*$`
(`re.IGNORECASE`) via `pattern.sub("", s)`: the pattern is anchored at the
end, so there is at most one match and substitution removes the trailing
run `\s+ … \s*`. -/
def applySuffixPattern (words : List SuffixWord) (s : List Char) : List Char :=
  let rev := s.reverse.dropWhile isPySpace
  match matchWordsRev rev words.reverse with
  | some rest => rest.reverse
  | none => s

/-- A one-word pattern `\s+tok\s*$`. -/
def pat (tok : String) : List SuffixWord :=
  [⟨tok.data.reverse, false⟩]

/-- A one-word pattern `\s+tok\.?\s*$`. -/
def patDot (tok : String) : List SuffixWord :=
  [⟨tok.data.reverse, true⟩]

/-- `_SUFFIX_PATTERNS`, in source order. -/
def suffixPatterns : List (List SuffixWord) :=
  [ pat "Limited",
    patDot "Ltd",
    patDot "Pvt",
    [⟨"Private".data.reverse, false⟩, ⟨"Limited".data.reverse, false⟩],
    [⟨"Pvt".data.reverse, true⟩, ⟨"Ltd".data.reverse, true⟩],
    patDot "Inc",
    pat "Corporation",
    patDot "Corp",
    pat "Company",
    patDot "Co" ]

/-- The `for pattern in _SUFFIX_PATTERNS: normalized = pattern.sub("", normalized)`
loop. -/
def applySuffixPatterns (s : List Char) : List Char :=
  suffixPatterns.foldl (fun acc p => applySuffixPattern p acc) s

/-- `_TRAILING_DOTS_SPACES_PATTERN = re.compile(r"[\.\s]+$")`, applied with
`sub("", ·)`: remove the maximal trailing run of dots and whitespace. -/
def stripTrailingDotsSpaces (s : List Char) : List Char :=
  (s.reverse.dropWhile (fun c => c = '.' || isPySpace c)).reverse

/-- `DataProcessorUtils.normalize_company_name` (identical to
`HoldingsDataProcessor._normalize_company_name`). -/
def normalize_company_name (company_name : String) : String :=
  if company_name = "" then company_name
  else
    let normalized := pyStripList company_name.data
    let normalized := applySuffixPatterns normalized
    let normalized := stripTrailingDotsSpaces normalized
    if pyStripList normalized = [] then company_name
    else ⟨pyStripList normalized⟩

example : normalize_company_name "Reliance Industries Limited" = "Reliance Industries" := by decide
example : normalize_company_name "TCS Ltd" = "TCS" := by decide
example : normalize_company_name "HDFC Bank Limited" = "HDFC Bank" := by decide
example : normalize_company_name "Reliance" = "Reliance" := by decide
example : normalize_company_name " . " = " . " := by decide
example : normalize_company_name "X Limited Limited" = "X Limited" := by decide
example : normalize_company_name "X Limited" = "X" := by decide
example : normalize_company_name "Infosys Pvt. Ltd." = "Infosys" := by decide
example : normalize_company_name "A Pvt.. Ltd" = "A Pvt" := by decide
example : normalize_company_name "A  Limited" = "A" := by decide
example : normalize_company_name "X Ltd ." = "X Ltd" := by decide
example : normalize_company_name "A Ltd.." = "A Ltd" := by decide
example : normalize_company_name "Foo Ltd\n" = "Foo" := by decide
example : normalize_company_name "A Private Limited" = "A Private" := by decide
example : normalize_company_name "x co." = "x" := by decide
example : normalize_company_name "TELCO" = "TELCO" := by decide

/-! ### `DataProcessorUtils.parse_percentage` -/

/-- Continuation of a Python float digit part: `(["_"] digit | digit)*`,
underscores allowed only between digits. Returns the digits read and the
unread remainder. -/
def digitTail : List Char → (List Char × List Char)
  | '_' :: d :: rest =>
      if d.isDigit then
        let (ds, r) := digitTail rest
        (d :: ds, r)
      else ([], '_' :: d :: rest)
  | c :: rest =>
      if c.isDigit then
        let (ds, r) := digitTail rest
        (c :: ds, r)
      else ([], c :: rest)
  | [] => ([], [])

/-- A Python `digitpart`: must start with a digit; empty result means the
part is absent at this position. -/
def parseDigitPart (l : List Char) : List Char × List Char :=
  match l with
  | c :: rest =>
      if c.isDigit then
        let (ds, r) := digitTail rest
        (c :: ds, r)
      else ([], l)
  | [] => ([], [])

/-- Digit list to natural number. -/
def digitsToNat (ds : List Char) : Nat :=
  ds.foldl (fun a c => a * 10 + (c.toNat - 48)) 0

/-- Mantissa and exponent to an exact rational:
`(ids + fds / 10 ^ |fds|) * 10 ^ e`, computed over the integers so that
the result is a normalized rational. -/
def floatValue (ids fds : List Char) (e : Int) : Rat :=
  let m : Int := (digitsToNat ids : Int) * (10 : Int) ^ fds.length + (digitsToNat fds : Int)
  if 0 ≤ e then mkRat (m * (10 : Int) ^ e.toNat) ((10 : Nat) ^ fds.length)
  else mkRat m ((10 : Nat) ^ fds.length * (10 : Nat) ^ (-e).toNat)

/-- The exponent suffix `(e|E)[sign]digitpart` followed by end of input,
given the mantissa digits already read. -/
def parseExpPart (ids fds : List Char) : List Char → Option Rat
  | [] => some (floatValue ids fds 0)
  | c :: rest =>
      if c = 'e' || c = 'E' then
        let (esgn, rest) := match rest with
          | '+' :: r => ((1 : Int), r)
          | '-' :: r => ((-1 : Int), r)
          | r => ((1 : Int), r)
        let (eds, rest) := parseDigitPart rest
        if eds ≠ [] ∧ rest = [] then
          some (floatValue ids fds (esgn * (digitsToNat eds : Int)))
        else none
      else none

/-- The body of a Python float literal after the sign:
`digitpart ["." [digitpart]] [exp]` or `"." digitpart [exp]`. -/
def pyFloatBody (l : List Char) : Option Rat :=
  match l with
  | '.' :: rest =>
      let (fds, rest) := parseDigitPart rest
      if fds = [] then none else parseExpPart [] fds rest
  | _ =>
      let (ids, rest) := parseDigitPart l
      if ids = [] then none
      else
        match rest with
        | '.' :: rest2 =>
            let (fds, rest3) := parseDigitPart rest2
            parseExpPart ids fds rest3
        | _ => parseExpPart ids [] rest

/-- Python `float(s)` on the finite-value fragment, as an exact rational:
surrounding whitespace is stripped, then `[sign] number`. The non-finite
literals `inf`/`infinity`/`nan` have no rational value and are modelled as
parse failures. -/
def pyFloat (s : String) : Option Rat :=
  let l := pyStripList s.data
  let (neg, l) : Bool × List Char :=
    match l with
    | '+' :: r => (false, r)
    | '-' :: r => (true, r)
    | _ => (false, l)
  let low := l.map Char.toLower
  if low = "inf".data || low = "infinity".data || low = "nan".data then none
  else (pyFloatBody l).map (fun v => if neg then -v else v)

/-- `_PERCENT_WS_PATTERN.sub("", s)`: delete every `%` and whitespace
character. -/
def stripPercentWS (s : String) : String :=
  ⟨s.data.filter (fun c => ¬(c = '%' || isPySpace c))⟩

/-- `DataProcessorUtils.parse_percentage` (identical to
`HoldingsDataProcessor._parse_percentage` apart from the `None` guard,
which for string inputs is the empty-string test). -/
def parse_percentage (percentage_str : String) : Rat :=
  if percentage_str = "" then 0
  else
    match pyFloat (stripPercentWS percentage_str) with
    | some v => v
    | none => 0

example : parse_percentage "8.50%" = mkRat 17 2 := by decide
example : parse_percentage "" = 0 := by decide
example : parse_percentage "invalid%" = 0 := by decide
example : parse_percentage "5._2" = 0 := by decide
example : parse_percentage "1234%" = 1234 := by decide
example : parse_percentage "-5%" = -5 := by decide
example : parse_percentage "5.25" = mkRat 21 4 := by decide
example : parse_percentage "1e2%" = 100 := by decide
example : parse_percentage " 8 . 5 0 %" = mkRat 17 2 := by decide
example : parse_percentage "1_0%" = 10 := by decide

/-- Follows the spec's words, for comparison with `parse_percentage`:
"extracts the first `\d{1,3}(\.\d+)?` immediately preceding or containing
a `%` token; returns `0` on absence or malformed input". The leftmost
occurrence of up-to-three digits (greedy) with an optional greedy
fractional part that is immediately followed by `%`. -/
def specParsePercentage (s : String) : Rat :=
  go s.data
where
  matchAt (l : List Char) : Option (Rat × List Char) :=
    let ids := (l.take 3).takeWhile Char.isDigit
    if ids = [] then none
    else
      match l.drop ids.length with
      | '.' :: rest =>
          let fds := rest.takeWhile Char.isDigit
          if fds = [] then some ((digitsToNat ids : Rat), l.drop ids.length)
          else some (floatValue ids fds 0, rest.drop fds.length)
      | rest => some ((digitsToNat ids : Rat), rest)
  go : List Char → Rat
    | [] => 0
    | c :: rest =>
        match matchAt (c :: rest) with
        | some (v, '%' :: _) => v
        | _ => go rest

example : specParsePercentage "8.50%" = mkRat 17 2 := by decide
example : specParsePercentage "" = 0 := by decide
example : specParsePercentage "invalid%" = 0 := by decide
example : specParsePercentage "-5%" = 5 := by decide

/-! ### `HoldingsDataProcessor` -/

/-- `ProcessedHolding` from `holdings/data_processor.py`. -/
structure ProcessedHolding where
  company_name : String
  allocation_percentage : Rat
  rank : Int
deriving DecidableEq, Repr

/-- `ProcessedFund` from `holdings/data_processor.py`. -/
structure ProcessedFund where
  name : String
  aum : String
  holdings : List ProcessedHolding
deriving DecidableEq, Repr

/-- One raw holding dictionary as consumed by `_process_single_fund`:
`company_name` and `allocation_percentage` default to `""` and `"0%"`
upstream of the fields modelled here; `rank` is the already-coerced
integer rank. -/
structure RawHolding where
  company_name : String
  allocation_percentage : String
  rank : Int
deriving DecidableEq, Repr

/-- A raw fund document: `fund_name`, `aum` and the `top_holdings` list
extracted from the JSON. -/
structure RawFund where
  fund_name : String
  aum : String
  top_holdings : List RawHolding
deriving DecidableEq, Repr

/-- `HoldingsDataProcessor._is_excluded_holding` (and
`DataProcessorUtils.is_excluded_holding`'s core test):
`any(excluded.upper() in company_upper for excluded in excluded_holdings)`. -/
def is_excluded_holding (company_name : String) (excluded_holdings : List String) : Bool :=
  excluded_holdings.any (fun excluded => strContains (pyUpper company_name).data (pyUpper excluded).data)

/-- One iteration of the holdings loop in
`HoldingsDataProcessor._process_single_fund`: strip the raw name, drop the
holding when the raw (stripped) name matches the exclusion set, parse the
allocation, keep the holding when the name is non-empty and the parsed
allocation is positive, and only then normalize the name. -/
def processRawHolding (excluded_holdings : List String) (h : RawHolding) : Option ProcessedHolding :=
  let company_name := pyStrip h.company_name
  if is_excluded_holding company_name excluded_holdings then none
  else
    let allocation_pct := parse_percentage h.allocation_percentage
    if company_name ≠ "" ∧ 0 < allocation_pct then
      some { company_name := normalize_company_name company_name
             allocation_percentage := allocation_pct
             rank := h.rank }
    else none

/-- `HoldingsDataProcessor._process_single_fund`: process every raw
holding and return a fund only when at least one holding survives. -/
def process_single_fund (excluded_holdings : List String) (fund : RawFund) : Option ProcessedFund :=
  let processed_holdings := fund.top_holdings.filterMap (processRawHolding excluded_holdings)
  if processed_holdings ≠ [] then
    some { name := fund.fund_name, aum := fund.aum, holdings := processed_holdings }
  else none

example :
    processRawHolding ["LTD"] { company_name := "Foo Ltd", allocation_percentage := "5%", rank := 1 } =
      none := rfl
example : is_excluded_holding (normalize_company_name "Foo Ltd") ["LTD"] = false := by decide

/-! ### `HoldingsAggregator` -/

/-- One `funds_info` entry built in `aggregate_holdings`. -/
structure FundInfo where
  name : String
  aum : String
  holdings_count : Nat
deriving DecidableEq, Repr

/-- `CompanyData` from `holdings/aggregator.py`. -/
structure CompanyData where
  name : String
  fund_count : Nat
  total_weight : Rat
  average_weight : Rat
  sample_funds : List String
deriving DecidableEq, Repr

/-- `AggregatedData` from `holdings/aggregator.py`: the two dicts are
modelled by their values in key-insertion order (Python dicts iterate in
insertion order; `companies` is keyed by company name, `funds_info` by
fund name). -/
structure AggregatedData where
  companies : List CompanyData
  funds_info : List FundInfo
deriving DecidableEq, Repr

/-- `AggregatorUtils.calculate_average_weight`. -/
def calculate_average_weight (total_weight : Rat) (fund_count : Nat) : Rat :=
  if 0 < fund_count then total_weight / (fund_count : Rat) else 0

/-- `AggregatorUtils.limit_sample_funds` (`None` means no limit). -/
def limit_sample_funds (sample_funds : List String) (max_samples : Option Int) : List String :=
  match max_samples with
  | none => sample_funds
  | some n => if n ≤ 0 then sample_funds else sample_funds.take n.toNat

/-- The mutable state of the aggregation loop: the three `defaultdict`s
and the `funds_info` dict, each as a total lookup function (with the
defaultdict default) plus the insertion-ordered key list. -/
structure AggState where
  companyKeys : List String
  fundsOf : String → List String
  weightOf : String → Rat
  examplesOf : String → List String
  fundKeys : List String
  infoOf : String → FundInfo

/-- Empty aggregation state. -/
def initAggState : AggState :=
  { companyKeys := []
    fundsOf := fun _ => []
    weightOf := fun _ => 0
    examplesOf := fun _ => []
    fundKeys := []
    infoOf := fun _ => { name := "", aum := "", holdings_count := 0 } }

/-- Dict-key insertion: a key already present keeps its position. -/
def insertKey (keys : List String) (k : String) : List String :=
  if k ∈ keys then keys else keys ++ [k]

/-- Point update of a lookup function. -/
def updateFun {α : Type} (f : String → α) (k : String) (v : α) : String → α :=
  fun x => if x = k then v else f x

/-- Python `set.add` on the distinct-fund set, modelled as a
duplicate-free list. -/
def addToSet (l : List String) (x : String) : List String :=
  if x ∈ l then l else l ++ [x]

/-- The body of the inner `for holding in fund.holdings` loop of
`HoldingsAggregator.aggregate_holdings`. -/
def processHoldingStep (fund_key : String) (max_samples : Int) (st : AggState)
    (h : ProcessedHolding) : AggState :=
  let company := h.company_name
  let weight := h.allocation_percentage
  { st with
    companyKeys := insertKey st.companyKeys company
    fundsOf := updateFun st.fundsOf company (addToSet (st.fundsOf company) fund_key)
    weightOf := updateFun st.weightOf company (st.weightOf company + weight)
    examplesOf := updateFun st.examplesOf company
      (if ((st.examplesOf company).length : Int) < max_samples then
        st.examplesOf company ++ [fund_key]
      else st.examplesOf company) }

/-- The body of the outer `for fund in processed_funds` loop:
record `funds_info[fund.name]` (last write wins, insertion order kept),
then run the holdings loop. -/
def processFundStep (max_samples : Int) (st : AggState) (fund : ProcessedFund) : AggState :=
  let fund_key := fund.name
  let st := { st with
    fundKeys := insertKey st.fundKeys fund_key
    infoOf := updateFun st.infoOf fund_key
      { name := fund.name, aum := fund.aum, holdings_count := fund.holdings.length } }
  fund.holdings.foldl (processHoldingStep fund_key max_samples) st

/-- Resolution of `params.max_sample_funds_per_company` in
`aggregate_holdings` (lines 66-69): `some n` when the configured value is
an `int`, `none` otherwise (then the default 5 is used); negative values
are clamped to 0. -/
def resolvedMaxSamples (maxSamplesConfig : Option Int) : Int :=
  match maxSamplesConfig with
  | some n => if n < 0 then 0 else n
  | none => 5

/-- The company-building block of `aggregate_holdings` (the
`for company_name in company_to_funds` loop body). -/
def buildCompanyData (st : AggState) (max_samples : Int) (company_name : String) :
    CompanyData :=
  let fund_count := (st.fundsOf company_name).length
  let total_weight := st.weightOf company_name
  { name := company_name
    fund_count := fund_count
    total_weight := total_weight
    average_weight := calculate_average_weight total_weight fund_count
    sample_funds := limit_sample_funds (st.examplesOf company_name) (some max_samples) }

/-- The aggregation-loop state after processing all funds. -/
def aggState (processed_funds : List ProcessedFund) (maxSamplesConfig : Option Int) :
    AggState :=
  processed_funds.foldl (processFundStep (resolvedMaxSamples maxSamplesConfig)) initAggState

/-- `HoldingsAggregator.aggregate_holdings`. -/
def aggregate_holdings (processed_funds : List ProcessedFund)
    (maxSamplesConfig : Option Int) : AggregatedData :=
  let st := aggState processed_funds maxSamplesConfig
  { companies :=
      st.companyKeys.map (buildCompanyData st (resolvedMaxSamples maxSamplesConfig))
    funds_info := st.fundKeys.map st.infoOf }

/-- The funds among `funds` that contain at least one holding of company
`c`. -/
def fundsContaining (funds : List ProcessedFund) (c : String) : List ProcessedFund :=
  funds.filter (fun f => f.holdings.any (fun h => h.company_name = c))

/-- Company `c`'s weight contribution of a single fund: the sum of the
weights of that company's holdings in the fund. -/
def perFundContribution (f : ProcessedFund) (c : String) : Rat :=
  ((f.holdings.filter (fun h => h.company_name = c)).map
    (fun h => h.allocation_percentage)).sum

example :
    ((aggregate_holdings
        [{ name := "F", aum := "x",
           holdings := [{ company_name := "C", allocation_percentage := 5, rank := 1 },
                        { company_name := "C", allocation_percentage := 3, rank := 2 }] }]
        (some 5)).companies.map (fun cd => cd.sample_funds)) = [["F", "F"]] := by decide

/-! ### `OutputBuilderUtils` and `HoldingsOutputBuilder` -/

/-- Python `round` to the nearest integer, halves to even, on the exact
rational model of the float value. -/
def pyRoundHalfEven (x : Rat) : Int :=
  if x - (⌊x⌋ : Rat) < 1 / 2 then ⌊x⌋
  else if 1 / 2 < x - (⌊x⌋ : Rat) then ⌊x⌋ + 1
  else if ⌊x⌋ % 2 = 0 then ⌊x⌋ else ⌊x⌋ + 1

/-- Python `round(x, ndigits)` on the exact rational model. -/
def pyRound (x : Rat) (ndigits : Nat) : Rat :=
  (pyRoundHalfEven (x * (10 : Rat) ^ ndigits) : Rat) / (10 : Rat) ^ ndigits

/-- `OutputBuilderUtils.format_currency_value`: `int(round(value))`. -/
def format_currency_value (value : Rat) : Int :=
  pyRoundHalfEven value

/-- `OutputBuilderUtils.format_percentage` with the default two decimal
places. -/
def format_percentage (value : Rat) : Rat :=
  pyRound value 2

/-- `OutputBuilderUtils.limit_results` (`None` means no limit). -/
def limit_results {α : Type} (items : List α) (max_items : Option Int) : List α :=
  match max_items with
  | none => items
  | some n => if n ≤ 0 then items else items.take n.toNat

/-- The comparator realising Python's ascending sort by the key
`(-fund_count, -total_weight)`. -/
def byFundCountLe (a b : CompanyData) : Bool :=
  decide (b.fund_count < a.fund_count) ||
    (a.fund_count == b.fund_count && decide (b.total_weight ≤ a.total_weight))

/-- The comparator realising Python's ascending sort by the key
`(-total_weight, -fund_count)`. -/
def byTotalWeightLe (a b : CompanyData) : Bool :=
  decide (b.total_weight < a.total_weight) ||
    (a.total_weight == b.total_weight && decide (b.fund_count ≤ a.fund_count))

/-- The comparator realising Python's ascending sort by the key
`-total_weight`. -/
def byWeightLe (a b : CompanyData) : Bool :=
  decide (b.total_weight ≤ a.total_weight)

/-- The three `sort_type` values accepted by
`OutputBuilderUtils.sort_companies_by_criteria` (any other value raises). -/
inductive SortType
  | fund_count
  | total_weight
  | weight_then_count
deriving DecidableEq, Repr

/-- `OutputBuilderUtils.sort_companies_by_criteria`: a stable sort
(Python's `sorted`) by the respective key. -/
def sort_companies_by_criteria (companies : List CompanyData) : SortType → List CompanyData
  | .fund_count => companies.mergeSort byFundCountLe
  | .total_weight => companies.mergeSort byTotalWeightLe
  | .weight_then_count => companies.mergeSort byWeightLe

/-- `OutputBuilderUtils.find_companies_in_all_funds`. -/
def find_companies_in_all_funds (companies : List CompanyData) (total_fund_count : Nat) :
    List CompanyData :=
  (companies.filter (fun c => c.fund_count == total_fund_count)).mergeSort byWeightLe

/-- One fund reference extracted by
`OutputBuilderUtils.extract_fund_references`. -/
structure FundRef where
  name : String
  aum : String
deriving DecidableEq, Repr

/-- A company entry formatted by
`OutputBuilderUtils.format_company_for_dashboard`. -/
structure DashboardCompany where
  name : String
  company : String
  fund_count : Nat
  total_weight : Rat
  avg_weight : Rat
  sample_funds : List String
deriving DecidableEq, Repr

/-- `OutputBuilderUtils.format_company_for_dashboard` applied to a
`CompanyData` (as `HoldingsOutputBuilder._format_company_for_output`
does). -/
def format_company_for_dashboard (c : CompanyData) : DashboardCompany :=
  { name := c.name
    company := c.name
    fund_count := c.fund_count
    total_weight := pyRound c.total_weight 2
    avg_weight := pyRound c.average_weight 3
    sample_funds := c.sample_funds }

/-- The holdings report structure built by
`HoldingsOutputBuilder._build_output_structure`. -/
structure HoldingsOutput where
  total_files : Nat
  total_funds : Nat
  funds : List FundRef
  unique_companies : Nat
  top_by_fund_count : List DashboardCompany
  top_by_total_weight : List DashboardCompany
  common_in_all_funds : List DashboardCompany
deriving DecidableEq, Repr

/-- `OutputBuilderUtils.extract_max_companies_config`:
`maxCompaniesConfig` models `params.max_companies_in_results`: `some n`
when the configured value is an `int`, `none` otherwise (then the default
100 is used); negative values are clamped to 0. -/
def resolvedMaxCompanies (maxCompaniesConfig : Option Int) : Int :=
  match maxCompaniesConfig with
  | some n => if n < 0 then 0 else n
  | none => 100

/-- `HoldingsOutputBuilder.build_category_output`. -/
def build_category_output (aggregated_data : AggregatedData)
    (maxCompaniesConfig : Option Int) : HoldingsOutput :=
  let max_companies : Int := resolvedMaxCompanies maxCompaniesConfig
  let funds := aggregated_data.funds_info.map
    (fun fi => { name := fi.name, aum := fi.aum : FundRef })
  let by_fund_count := sort_companies_by_criteria aggregated_data.companies .fund_count
  let by_total_weight := sort_companies_by_criteria aggregated_data.companies .total_weight
  let common_in_all := find_companies_in_all_funds aggregated_data.companies funds.length
  { total_files := funds.length
    total_funds := funds.length
    funds := funds
    unique_companies := aggregated_data.companies.length
    top_by_fund_count :=
      (limit_results by_fund_count (some max_companies)).map format_company_for_dashboard
    top_by_total_weight :=
      (limit_results by_total_weight (some max_companies)).map format_company_for_dashboard
    common_in_all_funds :=
      (limit_results common_in_all (some max_companies)).map format_company_for_dashboard }

/-! ### `PortfolioOutputBuilder` -/

/-- A formatted per-fund contribution
(`OutputBuilderUtils.format_fund_contribution`). -/
structure FundContribution where
  fund_name : String
  contribution : Int
deriving DecidableEq, Repr

/-- One company allocation entry built by
`PortfolioOutputBuilder._build_company_allocations`. -/
structure CompanyAllocation where
  company_name : String
  amount : Int
  percentage : Rat
  from_funds : List FundContribution
deriving DecidableEq, Repr

/-- `PortfolioOutputBuilder._build_company_allocations`.
`company_sources` models `aggregation["company_sources"].get(name, [])`
as a total function from company name to its `(fund_name, contribution)`
list. -/
def build_company_allocations (company_amounts : List (String × Rat))
    (company_sources : String → List (String × Rat)) (total_value : Rat) :
    List CompanyAllocation :=
  company_amounts.map (fun na =>
    let pct : Rat := if 0 < total_value then na.2 / total_value * 100 else 0
    { company_name := na.1
      amount := format_currency_value na.2
      percentage := format_percentage pct
      from_funds := (company_sources na.1).map
        (fun fc => { fund_name := fc.1, contribution := format_currency_value fc.2 }) })

/-! ### Aggregation-loop invariants -/

/-- Whether fund `f` contains at least one holding of company `c`. -/
def containsCompany (f : ProcessedFund) (c : String) : Bool :=
  f.holdings.any (fun h => h.company_name = c)

theorem mem_addToSet {l : List String} {x y : String} :
    x ∈ addToSet l y ↔ x ∈ l ∨ x = y := by
  unfold addToSet
  by_cases h : y ∈ l
  · simp only [if_pos h]
    constructor
    · exact fun hx => Or.inl hx
    · rintro (hx | rfl)
      · exact hx
      · exact h
  · simp [if_neg h, or_comm]

theorem nodup_addToSet {l : List String} {y : String} (hl : l.Nodup) :
    (addToSet l y).Nodup := by
  unfold addToSet
  by_cases h : y ∈ l
  · simpa [if_pos h]
  · simp [if_neg h, List.nodup_append, hl, h]

theorem addToSet_idem (l : List String) (y : String) :
    addToSet (addToSet l y) y = addToSet l y := by
  have h : y ∈ addToSet l y := mem_addToSet.2 (Or.inr rfl)
  show (if y ∈ addToSet l y then addToSet l y else addToSet l y ++ [y]) = addToSet l y
  rw [if_pos h]

theorem addToSet_ne_nil (l : List String) (y : String) : addToSet l y ≠ [] := by
  unfold addToSet
  by_cases h : y ∈ l
  · rw [if_pos h]
    rintro rfl
    exact absurd h (List.not_mem_nil y)
  · rw [if_neg h]
    simp

theorem mem_insertKey {l : List String} {x y : String} :
    x ∈ insertKey l y ↔ x ∈ l ∨ x = y := by
  unfold insertKey
  by_cases h : y ∈ l
  · simp only [if_pos h]
    constructor
    · exact fun hx => Or.inl hx
    · rintro (hx | rfl)
      · exact hx
      · exact h
  · simp [if_neg h, or_comm]

theorem nodup_insertKey {l : List String} {y : String} (hl : l.Nodup) :
    (insertKey l y).Nodup := by
  unfold insertKey
  by_cases h : y ∈ l
  · simpa [if_pos h]
  · simp [if_neg h, List.nodup_append, hl, h]

/-- The inner holdings loop leaves `fundKeys` and `infoOf` unchanged. -/
theorem innerFold_fundKeys (key : String) (ms : Int) (holdings : List ProcessedHolding)
    (st : AggState) :
    (holdings.foldl (processHoldingStep key ms) st).fundKeys = st.fundKeys ∧
    (holdings.foldl (processHoldingStep key ms) st).infoOf = st.infoOf := by
  induction holdings generalizing st with
  | nil => exact ⟨rfl, rfl⟩
  | cons h rest ih => exact ih (processHoldingStep key ms st h)

/-- Effect of the inner holdings loop on one company's distinct-fund
set. -/
theorem innerFold_fundsOf (key : String) (ms : Int) (holdings : List ProcessedHolding)
    (st : AggState) (c : String) :
    (holdings.foldl (processHoldingStep key ms) st).fundsOf c =
      if holdings.any (fun h => h.company_name = c) then addToSet (st.fundsOf c) key
      else st.fundsOf c := by
  induction holdings generalizing st with
  | nil => simp
  | cons h rest ih =>
    rw [List.foldl_cons, ih]
    have hstep : (processHoldingStep key ms st h).fundsOf c =
        if h.company_name = c then addToSet (st.fundsOf c) key else st.fundsOf c := by
      simp only [processHoldingStep, updateFun]
      by_cases hc : c = h.company_name
      · simp [hc]
      · rw [if_neg hc, if_neg (fun hh => hc hh.symm)]
    by_cases hc : h.company_name = c
    · by_cases hr : rest.any (fun h => h.company_name = c)
      · simp [hc, hr, hstep, addToSet_idem]
      · simp [hc, hr, hstep]
    · by_cases hr : rest.any (fun h => h.company_name = c)
      · simp [hc, hr, hstep]
      · simp [hc, hr, hstep]

/-- Effect of the inner holdings loop on one company's running total
weight. -/
theorem innerFold_weightOf (key : String) (ms : Int) (holdings : List ProcessedHolding)
    (st : AggState) (c : String) :
    (holdings.foldl (processHoldingStep key ms) st).weightOf c =
      st.weightOf c +
        ((holdings.filter (fun h => h.company_name = c)).map
          (fun h => h.allocation_percentage)).sum := by
  induction holdings generalizing st with
  | nil => simp
  | cons h rest ih =>
    rw [List.foldl_cons, ih]
    have hstep : (processHoldingStep key ms st h).weightOf c =
        if h.company_name = c then st.weightOf c + h.allocation_percentage
        else st.weightOf c := by
      simp only [processHoldingStep, updateFun]
      by_cases hc : c = h.company_name
      · simp [hc]
      · rw [if_neg hc, if_neg (fun hh => hc hh.symm)]
    by_cases hc : h.company_name = c
    · simp [hc, hstep, add_assoc]
    · simp [hc, hstep]

/-- The inner holdings loop never grows a sample list beyond
`max (current length) ms`. -/
theorem innerFold_examplesOf_len (key : String) (ms : Int) (holdings : List ProcessedHolding)
    (st : AggState) (c : String) :
    (((holdings.foldl (processHoldingStep key ms) st).examplesOf c).length : Int) ≤
      max ((st.examplesOf c).length : Int) ms := by
  induction holdings generalizing st with
  | nil => exact le_max_left _ _
  | cons h rest ih =>
    rw [List.foldl_cons]
    refine le_trans (ih (processHoldingStep key ms st h)) ?_
    have hstep : (((processHoldingStep key ms st h).examplesOf c).length : Int) ≤
        max ((st.examplesOf c).length : Int) ms := by
      simp only [processHoldingStep, updateFun]
      by_cases hc : c = h.company_name
      · rw [if_pos hc, hc]
        by_cases hlt : ((st.examplesOf h.company_name).length : Int) < ms
        · rw [if_pos hlt]
          simp only [List.length_append, List.length_cons, List.length_nil]
          push_cast
          exact le_max_of_le_right (by omega)
        · rw [if_neg hlt]
          exact le_max_left _ _
      · rw [if_neg hc]
        exact le_max_left _ _
    exact max_le (le_trans hstep (max_le (le_max_left _ _) (le_max_right _ _)))
      (le_max_right _ _)

/-- Membership in the company-key list after the inner holdings loop. -/
theorem innerFold_companyKeys (key : String) (ms : Int) (holdings : List ProcessedHolding)
    (st : AggState) (x : String) :
    x ∈ (holdings.foldl (processHoldingStep key ms) st).companyKeys ↔
      x ∈ st.companyKeys ∨ holdings.any (fun h => h.company_name = x) := by
  induction holdings generalizing st with
  | nil => simp
  | cons h rest ih =>
    rw [List.foldl_cons, ih]
    have hstep : (processHoldingStep key ms st h).companyKeys =
        insertKey st.companyKeys h.company_name := rfl
    rw [hstep, mem_insertKey]
    simp only [List.any_cons]
    constructor
    · rintro ((hx | rfl) | hx)
      · exact Or.inl hx
      · exact Or.inr (by simp)
      · exact Or.inr (by simp [hx])
    · rintro (hx | hx)
      · exact Or.inl (Or.inl hx)
      · rcases (by simpa using hx : h.company_name = x ∨
          rest.any (fun h => h.company_name = x) = true) with hh | hh
        · exact Or.inl (Or.inr hh.symm)
        · exact Or.inr hh

/-- Every company key seen by the inner loop has a non-empty
distinct-fund set afterwards. -/
theorem innerFold_companyKeys_fundsOf (key : String) (ms : Int)
    (holdings : List ProcessedHolding) (st : AggState)
    (hinv : ∀ c, c ∈ st.companyKeys → st.fundsOf c ≠ []) :
    ∀ c, c ∈ (holdings.foldl (processHoldingStep key ms) st).companyKeys →
      (holdings.foldl (processHoldingStep key ms) st).fundsOf c ≠ [] := by
  intro c hc
  rw [innerFold_companyKeys] at hc
  rw [innerFold_fundsOf]
  by_cases hany : holdings.any (fun h => h.company_name = c)
  · rw [if_pos hany]
    exact addToSet_ne_nil _ _
  · rw [if_neg hany]
    rcases hc with hc | hc
    · exact hinv c hc
    · exact absurd hc hany

/-- Effect of one outer-loop step on one company's distinct-fund set. -/
theorem fundStep_fundsOf (ms : Int) (st : AggState) (f : ProcessedFund) (c : String) :
    (processFundStep ms st f).fundsOf c =
      if containsCompany f c then addToSet (st.fundsOf c) f.name else st.fundsOf c := by
  unfold processFundStep containsCompany
  exact innerFold_fundsOf f.name ms f.holdings _ c

/-- Membership in a company's distinct-fund set after the outer loop. -/
theorem outerFold_fundsOf_mem (ms : Int) (funds : List ProcessedFund) (st : AggState)
    (c x : String) :
    x ∈ (funds.foldl (processFundStep ms) st).fundsOf c ↔
      x ∈ st.fundsOf c ∨ ∃ f, f ∈ funds ∧ containsCompany f c ∧ f.name = x := by
  induction funds generalizing st with
  | nil => simp
  | cons f rest ih =>
    rw [List.foldl_cons, ih]
    rw [fundStep_fundsOf]
    by_cases hf : containsCompany f c
    · rw [if_pos hf, mem_addToSet]
      constructor
      · rintro ((hx | rfl) | ⟨g, hg, hgc, rfl⟩)
        · exact Or.inl hx
        · exact Or.inr ⟨f, by simp, hf, rfl⟩
        · exact Or.inr ⟨g, by simp [hg], hgc, rfl⟩
      · rintro (hx | ⟨g, hg, hgc, rfl⟩)
        · exact Or.inl (Or.inl hx)
        · rcases List.mem_cons.1 hg with rfl | hg
          · exact Or.inl (Or.inr rfl)
          · exact Or.inr ⟨g, hg, hgc, rfl⟩
    · rw [if_neg hf]
      constructor
      · rintro (hx | ⟨g, hg, hgc, rfl⟩)
        · exact Or.inl hx
        · exact Or.inr ⟨g, by simp [hg], hgc, rfl⟩
      · rintro (hx | ⟨g, hg, hgc, rfl⟩)
        · exact Or.inl hx
        · rcases List.mem_cons.1 hg with rfl | hg
          · exact absurd hgc hf
          · exact Or.inr ⟨g, hg, hgc, rfl⟩

/-- The distinct-fund sets stay duplicate-free across the outer loop. -/
theorem outerFold_fundsOf_nodup (ms : Int) (funds : List ProcessedFund) (st : AggState)
    (c : String) (h : (st.fundsOf c).Nodup) :
    ((funds.foldl (processFundStep ms) st).fundsOf c).Nodup := by
  induction funds generalizing st with
  | nil => exact h
  | cons f rest ih =>
    rw [List.foldl_cons]
    refine ih _ ?_
    rw [fundStep_fundsOf]
    by_cases hf : containsCompany f c
    · rw [if_pos hf]
      exact nodup_addToSet h
    · rw [if_neg hf]
      exact h

/-- A company's running total after the outer loop is its starting value
plus the sum of all per-fund contributions. -/
theorem outerFold_weightOf (ms : Int) (funds : List ProcessedFund) (st : AggState)
    (c : String) :
    (funds.foldl (processFundStep ms) st).weightOf c =
      st.weightOf c + (funds.map (fun f => perFundContribution f c)).sum := by
  induction funds generalizing st with
  | nil => simp
  | cons f rest ih =>
    rw [List.foldl_cons, ih]
    have hstep : (processFundStep ms st f).weightOf c =
        st.weightOf c + perFundContribution f c := by
      unfold processFundStep perFundContribution
      exact innerFold_weightOf f.name ms f.holdings _ c
    rw [hstep]
    simp [add_assoc]

/-- Sample lists never grow beyond `max (current length) ms` across the
outer loop. -/
theorem outerFold_examplesOf_len (ms : Int) (funds : List ProcessedFund) (st : AggState)
    (c : String) :
    (((funds.foldl (processFundStep ms) st).examplesOf c).length : Int) ≤
      max ((st.examplesOf c).length : Int) ms := by
  induction funds generalizing st with
  | nil => exact le_max_left _ _
  | cons f rest ih =>
    rw [List.foldl_cons]
    refine le_trans (ih _) ?_
    have hstep : (((processFundStep ms st f).examplesOf c).length : Int) ≤
        max ((st.examplesOf c).length : Int) ms := by
      unfold processFundStep
      exact innerFold_examplesOf_len f.name ms f.holdings _ c
    exact max_le (le_trans hstep (max_le (le_max_left _ _) (le_max_right _ _)))
      (le_max_right _ _)

/-- Membership in the fund-key list after the outer loop. -/
theorem outerFold_fundKeys_mem (ms : Int) (funds : List ProcessedFund) (st : AggState)
    (x : String) :
    x ∈ (funds.foldl (processFundStep ms) st).fundKeys ↔
      x ∈ st.fundKeys ∨ ∃ f, f ∈ funds ∧ f.name = x := by
  induction funds generalizing st with
  | nil => simp
  | cons f rest ih =>
    rw [List.foldl_cons, ih]
    have hstep : (processFundStep ms st f).fundKeys = insertKey st.fundKeys f.name := by
      unfold processFundStep
      exact (innerFold_fundKeys f.name ms f.holdings _).1
    rw [hstep, mem_insertKey]
    constructor
    · rintro ((hx | rfl) | ⟨g, hg, rfl⟩)
      · exact Or.inl hx
      · exact Or.inr ⟨f, by simp, rfl⟩
      · exact Or.inr ⟨g, by simp [hg], rfl⟩
    · rintro (hx | ⟨g, hg, rfl⟩)
      · exact Or.inl (Or.inl hx)
      · rcases List.mem_cons.1 hg with rfl | hg
        · exact Or.inl (Or.inr rfl)
        · exact Or.inr ⟨g, hg, rfl⟩

/-- The fund-key list stays duplicate-free across the outer loop. -/
theorem outerFold_fundKeys_nodup (ms : Int) (funds : List ProcessedFund) (st : AggState)
    (h : st.fundKeys.Nodup) :
    ((funds.foldl (processFundStep ms) st).fundKeys).Nodup := by
  induction funds generalizing st with
  | nil => exact h
  | cons f rest ih =>
    rw [List.foldl_cons]
    refine ih _ ?_
    have hstep : (processFundStep ms st f).fundKeys = insertKey st.fundKeys f.name := by
      unfold processFundStep
      exact (innerFold_fundKeys f.name ms f.holdings _).1
    rw [hstep]
    exact nodup_insertKey h

/-- Every company key present after the outer loop has a non-empty
distinct-fund set. -/
theorem outerFold_companyKeys_fundsOf (ms : Int) (funds : List ProcessedFund) (st : AggState)
    (hinv : ∀ c, c ∈ st.companyKeys → st.fundsOf c ≠ []) :
    ∀ c, c ∈ (funds.foldl (processFundStep ms) st).companyKeys →
      (funds.foldl (processFundStep ms) st).fundsOf c ≠ [] := by
  induction funds generalizing st with
  | nil => exact hinv
  | cons f rest ih =>
    rw [List.foldl_cons]
    refine ih _ ?_
    unfold processFundStep
    exact innerFold_companyKeys_fundsOf f.name ms f.holdings _ hinv

/-- `resolvedMaxSamples` is never negative. -/
theorem resolvedMaxSamples_nonneg (cfg : Option Int) : 0 ≤ resolvedMaxSamples cfg := by
  cases cfg with
  | none => norm_num [resolvedMaxSamples]
  | some n =>
    simp only [resolvedMaxSamples]
    by_cases h : n < 0
    · rw [if_pos h]
    · rw [if_neg h]
      omega

/-- The `companies` dict of an aggregate, unfolded. -/
theorem aggregate_companies_eq (funds : List ProcessedFund) (cfg : Option Int) :
    (aggregate_holdings funds cfg).companies =
      (aggState funds cfg).companyKeys.map
        (buildCompanyData (aggState funds cfg) (resolvedMaxSamples cfg)) := rfl

/-- C1: in the aggregate produced by `aggregate_holdings`, every
company's `fund_count` equals the number of distinct funds (funds are
keyed by their names throughout the aggregation) that contain at least
one holding of that company. -/
theorem C1_fund_count_eq_card_distinct_funds (funds : List ProcessedFund)
    (cfg : Option Int) :
    (aggregate_holdings funds cfg).companies.all
      (fun cd =>
        cd.fund_count =
          ((fundsContaining funds cd.name).map (fun f => f.name)).dedup.length) := by
  rw [aggregate_companies_eq, List.all_eq_true]
  intro cd hcd
  rw [List.mem_map] at hcd
  obtain ⟨c, hc, rfl⟩ := hcd
  rw [decide_eq_true_eq]
  show ((aggState funds cfg).fundsOf c).length =
    ((fundsContaining funds c).map (fun f => f.name)).dedup.length
  have hmemF : ∀ x, x ∈ (aggState funds cfg).fundsOf c ↔
      ∃ f, f ∈ funds ∧ containsCompany f c ∧ f.name = x := by
    intro x
    unfold aggState
    rw [outerFold_fundsOf_mem]
    simp [initAggState]
  have hnodupF : ((aggState funds cfg).fundsOf c).Nodup := by
    unfold aggState
    apply outerFold_fundsOf_nodup
    simp [initAggState]
  have hmemD : ∀ x, x ∈ ((fundsContaining funds c).map (fun f => f.name)).dedup ↔
      ∃ f, f ∈ funds ∧ containsCompany f c ∧ f.name = x := by
    intro x
    rw [List.mem_dedup, List.mem_map]
    constructor
    · rintro ⟨f, hf, rfl⟩
      rw [fundsContaining, List.mem_filter] at hf
      exact ⟨f, hf.1, hf.2, rfl⟩
    · rintro ⟨f, hf, hfc, rfl⟩
      exact ⟨f, List.mem_filter.2 ⟨hf, hfc⟩, rfl⟩
  have hperm : ((aggState funds cfg).fundsOf c).Perm
      ((fundsContaining funds c).map (fun f => f.name)).dedup :=
    (List.perm_ext_iff_of_nodup hnodupF (List.nodup_dedup _)).2
      (fun x => by rw [hmemF, hmemD])
  exact hperm.length_eq

/-- C2: in the aggregate produced by `aggregate_holdings`, every
company's `total_weight` is the exact sum over the fund list of that
company's per-fund contribution (each holding of the company counted
exactly once in its fund's contribution). -/
theorem C2_total_weight_eq_sum_contributions (funds : List ProcessedFund)
    (cfg : Option Int) :
    (aggregate_holdings funds cfg).companies.all
      (fun cd =>
        cd.total_weight = (funds.map (fun f => perFundContribution f cd.name)).sum) := by
  rw [aggregate_companies_eq, List.all_eq_true]
  intro cd hcd
  rw [List.mem_map] at hcd
  obtain ⟨c, hc, rfl⟩ := hcd
  rw [decide_eq_true_eq]
  show (aggState funds cfg).weightOf c =
    (funds.map (fun f => perFundContribution f c)).sum
  unfold aggState
  rw [outerFold_weightOf]
  simp [initAggState]

/-- C3 (amended): in the aggregate produced by `aggregate_holdings`,
every company's `sample_funds` list has length at most the resolved
`max_sample_funds_per_company` (default 5, negatives clamped to 0). -/
theorem C3_sample_funds_length_le (funds : List ProcessedFund) (cfg : Option Int) :
    (aggregate_holdings funds cfg).companies.all
      (fun cd => cd.sample_funds.length ≤ (resolvedMaxSamples cfg).toNat) := by
  rw [aggregate_companies_eq, List.all_eq_true]
  intro cd hcd
  rw [List.mem_map] at hcd
  obtain ⟨c, hc, rfl⟩ := hcd
  rw [decide_eq_true_eq]
  show (limit_sample_funds ((aggState funds cfg).examplesOf c)
      (some (resolvedMaxSamples cfg))).length ≤ (resolvedMaxSamples cfg).toNat
  have hnn := resolvedMaxSamples_nonneg cfg
  have hlen : (((aggState funds cfg).examplesOf c).length : Int) ≤ resolvedMaxSamples cfg := by
    have := outerFold_examplesOf_len (resolvedMaxSamples cfg) funds initAggState c
    rw [show (initAggState.examplesOf c).length = 0 from rfl] at this
    simpa [max_eq_right hnn] using this
  simp only [limit_sample_funds]
  by_cases hle : resolvedMaxSamples cfg ≤ 0
  · rw [if_pos hle]
    have hz : resolvedMaxSamples cfg = 0 := le_antisymm hle hnn
    rw [hz] at hlen
    omega
  · rw [if_neg hle]
    calc (((aggState funds cfg).examplesOf c).take (resolvedMaxSamples cfg).toNat).length
        ≤ (resolvedMaxSamples cfg).toNat := by
          rw [List.length_take]
          omega

/-- C3 (counterexample): a fund listing the same company twice puts its
name into `sample_funds` twice — the fund name is appended without a
membership check. -/
theorem C3_sample_funds_dedup_counterexample :
    ((aggregate_holdings
        [{ name := "F", aum := "x",
           holdings := [{ company_name := "C", allocation_percentage := 5, rank := 1 },
                        { company_name := "C", allocation_percentage := 3, rank := 2 }] }]
        (some 5)).companies.map (fun cd => cd.sample_funds)) = [["F", "F"]] ∧
      ¬ (["F", "F"] : List String).Nodup := by
  constructor
  · decide
  · decide

/-- C10: the report's `total_files` equals `total_funds`, and both count
the distinct fund names among the processed funds: funds sharing a name
collapse into one `funds_info` entry. -/
theorem C10_total_files_eq_total_funds (funds : List ProcessedFund) (cfgS cfgC : Option Int) :
    (build_category_output (aggregate_holdings funds cfgS) cfgC).total_files =
        (build_category_output (aggregate_holdings funds cfgS) cfgC).total_funds ∧
      (build_category_output (aggregate_holdings funds cfgS) cfgC).total_funds =
        ((funds.map (fun f => f.name)).dedup).length := by
  have hfiles : (build_category_output (aggregate_holdings funds cfgS) cfgC).total_files =
      ((aggregate_holdings funds cfgS).funds_info.map
        (fun fi => { name := fi.name, aum := fi.aum : FundRef })).length := rfl
  have hfunds : (build_category_output (aggregate_holdings funds cfgS) cfgC).total_funds =
      ((aggregate_holdings funds cfgS).funds_info.map
        (fun fi => { name := fi.name, aum := fi.aum : FundRef })).length := rfl
  refine ⟨hfiles.trans hfunds.symm, ?_⟩
  rw [hfunds, List.length_map]
  have hinfo : (aggregate_holdings funds cfgS).funds_info =
      (aggState funds cfgS).fundKeys.map (aggState funds cfgS).infoOf := rfl
  rw [hinfo, List.length_map]
  have hmemK : ∀ x, x ∈ (aggState funds cfgS).fundKeys ↔
      ∃ f, f ∈ funds ∧ f.name = x := by
    intro x
    unfold aggState
    rw [outerFold_fundKeys_mem]
    simp [initAggState]
  have hnodupK : ((aggState funds cfgS).fundKeys).Nodup := by
    unfold aggState
    apply outerFold_fundKeys_nodup
    simp [initAggState]
  have hmemD : ∀ x, x ∈ ((funds.map (fun f => f.name)).dedup) ↔
      ∃ f, f ∈ funds ∧ f.name = x := by
    intro x
    rw [List.mem_dedup, List.mem_map]
  have hperm : ((aggState funds cfgS).fundKeys).Perm ((funds.map (fun f => f.name)).dedup) :=
    (List.perm_ext_iff_of_nodup hnodupK (List.nodup_dedup _)).2
      (fun x => by rw [hmemK, hmemD])
  exact hperm.length_eq

/-- `pyRoundHalfEven` never rounds below the floor. -/
theorem pyRoundHalfEven_lower (x : Rat) : ⌊x⌋ ≤ pyRoundHalfEven x := by
  unfold pyRoundHalfEven
  split_ifs <;> omega

/-- `pyRoundHalfEven` never rounds above the floor plus one. -/
theorem pyRoundHalfEven_upper (x : Rat) : pyRoundHalfEven x ≤ ⌊x⌋ + 1 := by
  unfold pyRoundHalfEven
  split_ifs <;> omega

/-- Python rounding to the nearest integer (halves to even) is
monotone. -/
theorem pyRoundHalfEven_mono {x y : Rat} (h : x ≤ y) :
    pyRoundHalfEven x ≤ pyRoundHalfEven y := by
  have hf : ⌊x⌋ ≤ ⌊y⌋ := Int.floor_le_floor h
  by_cases hfx : ⌊x⌋ = ⌊y⌋
  · have hr : x - (⌊y⌋ : Rat) ≤ y - (⌊y⌋ : Rat) := sub_le_sub_right h _
    unfold pyRoundHalfEven
    rw [hfx]
    split_ifs <;> first | omega | linarith
  · have hlt : ⌊x⌋ + 1 ≤ ⌊y⌋ := by omega
    calc pyRoundHalfEven x ≤ ⌊x⌋ + 1 := pyRoundHalfEven_upper x
      _ ≤ ⌊y⌋ := hlt
      _ ≤ pyRoundHalfEven y := pyRoundHalfEven_lower y

/-- Python rounding to a fixed number of decimal places is monotone. -/
theorem pyRound_mono {x y : Rat} (nd : Nat) (h : x ≤ y) :
    pyRound x nd ≤ pyRound y nd := by
  unfold pyRound
  have hpow : (0 : Rat) < (10 : Rat) ^ nd := by positivity
  have hmul : x * (10 : Rat) ^ nd ≤ y * (10 : Rat) ^ nd :=
    mul_le_mul_of_nonneg_right h (le_of_lt hpow)
  have hle := pyRoundHalfEven_mono hmul
  have hcast : ((pyRoundHalfEven (x * (10 : Rat) ^ nd) : Int) : Rat) ≤
      ((pyRoundHalfEven (y * (10 : Rat) ^ nd) : Int) : Rat) := by exact_mod_cast hle
  gcongr

/-- The comparator for sorting by descending weight is transitive. -/
theorem byWeightLe_trans (a b c : CompanyData) (hab : byWeightLe a b = true)
    (hbc : byWeightLe b c = true) : byWeightLe a c = true := by
  simp only [byWeightLe, decide_eq_true_eq] at *
  exact le_trans hbc hab

/-- The comparator for sorting by descending weight is total. -/
theorem byWeightLe_total (a b : CompanyData) :
    (byWeightLe a b || byWeightLe b a) = true := by
  simp only [byWeightLe, Bool.or_eq_true, decide_eq_true_eq]
  exact le_total b.total_weight a.total_weight

/-- `limit_results` returns a sublist of its input. -/
theorem limit_results_sublist {α : Type} (items : List α) (mi : Option Int) :
    (limit_results items mi).Sublist items := by
  cases mi with
  | none => exact List.Sublist.refl _
  | some n =>
    simp only [limit_results]
    by_cases h : n ≤ 0
    · rw [if_pos h]
    · rw [if_neg h]
      exact List.take_sublist _ _

/-- `common_in_all_funds` of a report, unfolded. -/
theorem build_common_eq (A : AggregatedData) (cfgC : Option Int) :
    (build_category_output A cfgC).common_in_all_funds =
      (limit_results
        (find_companies_in_all_funds A.companies
          ((A.funds_info.map (fun fi => { name := fi.name, aum := fi.aum : FundRef })).length))
        (some (resolvedMaxCompanies cfgC))).map format_company_for_dashboard := rfl

/-- `total_funds` of a report, unfolded. -/
theorem build_total_funds_eq (A : AggregatedData) (cfgC : Option Int) :
    (build_category_output A cfgC).total_funds =
      (A.funds_info.map (fun fi => { name := fi.name, aum := fi.aum : FundRef })).length := rfl

/-- C8: every entry of `common_in_all_funds` has `fund_count` equal to
the report's total fund count, the list can be non-empty only when the
total fund count is positive, and it is sorted by descending
`total_weight`. -/
theorem C8_common_in_all_funds (funds : List ProcessedFund) (cfgS cfgC : Option Int) :
    ((build_category_output (aggregate_holdings funds cfgS) cfgC).common_in_all_funds.all
        (fun dc => dc.fund_count =
          (build_category_output (aggregate_holdings funds cfgS) cfgC).total_funds)) ∧
      ((build_category_output (aggregate_holdings funds cfgS) cfgC).common_in_all_funds = [] ∨
        0 < (build_category_output (aggregate_holdings funds cfgS) cfgC).total_funds) ∧
      List.Sorted (fun a b : DashboardCompany => b.total_weight ≤ a.total_weight)
        (build_category_output (aggregate_holdings funds cfgS) cfgC).common_in_all_funds := by
  have hmem_base : ∀ cd : CompanyData,
      cd ∈ limit_results
          (find_companies_in_all_funds (aggregate_holdings funds cfgS).companies
            (((aggregate_holdings funds cfgS).funds_info.map
              (fun fi => { name := fi.name, aum := fi.aum : FundRef })).length))
          (some (resolvedMaxCompanies cfgC)) →
        cd ∈ (aggregate_holdings funds cfgS).companies ∧
          cd.fund_count =
            (((aggregate_holdings funds cfgS).funds_info.map
              (fun fi => { name := fi.name, aum := fi.aum : FundRef })).length) := by
    intro cd hcd
    have h1 : cd ∈ find_companies_in_all_funds (aggregate_holdings funds cfgS).companies
        (((aggregate_holdings funds cfgS).funds_info.map
          (fun fi => { name := fi.name, aum := fi.aum : FundRef })).length) :=
      (limit_results_sublist _ _).mem hcd
    unfold find_companies_in_all_funds at h1
    rw [(List.mergeSort_perm _ byWeightLe).mem_iff, List.mem_filter] at h1
    exact ⟨h1.1, by simpa using h1.2⟩
  refine ⟨?_, ?_, ?_⟩
  · rw [build_common_eq, List.all_eq_true]
    intro dc hdc
    rw [List.mem_map] at hdc
    obtain ⟨cd, hcd, rfl⟩ := hdc
    rw [decide_eq_true_eq]
    show cd.fund_count = _
    rw [build_total_funds_eq]
    exact (hmem_base cd hcd).2
  · by_cases hempty :
      (build_category_output (aggregate_holdings funds cfgS) cfgC).common_in_all_funds = []
    · exact Or.inl hempty
    · refine Or.inr ?_
      obtain ⟨dc, hdc⟩ := List.exists_mem_of_ne_nil _ hempty
      rw [build_common_eq, List.mem_map] at hdc
      obtain ⟨cd, hcd, rfl⟩ := hdc
      obtain ⟨hcompanies, hcount⟩ := hmem_base cd hcd
      rw [aggregate_companies_eq, List.mem_map] at hcompanies
      obtain ⟨c, hc, rfl⟩ := hcompanies
      have hne : (aggState funds cfgS).fundsOf c ≠ [] := by
        refine outerFold_companyKeys_fundsOf _ funds initAggState ?_ c hc
        intro c' hc'
        simp [initAggState] at hc'
      have hpos : 0 < (buildCompanyData (aggState funds cfgS)
          (resolvedMaxSamples cfgS) c).fund_count := by
        show 0 < ((aggState funds cfgS).fundsOf c).length
        exact List.length_pos.2 hne
      rw [build_total_funds_eq, ← hcount]
      exact hpos
  · rw [build_common_eq]
    have hsorted : List.Pairwise (fun a b : CompanyData => byWeightLe a b = true)
        (find_companies_in_all_funds (aggregate_holdings funds cfgS).companies
          (((aggregate_holdings funds cfgS).funds_info.map
            (fun fi => { name := fi.name, aum := fi.aum : FundRef })).length)) := by
      unfold find_companies_in_all_funds
      exact List.sorted_mergeSort byWeightLe_trans byWeightLe_total _
    have hlimited := List.Pairwise.sublist
      (limit_results_sublist _ (some (resolvedMaxCompanies cfgC))) hsorted
    refine List.Pairwise.map _ ?_ hlimited
    intro a b hab
    simp only [byWeightLe, decide_eq_true_eq] at hab
    show (format_company_for_dashboard b).total_weight ≤
      (format_company_for_dashboard a).total_weight
    exact pyRound_mono 2 hab

/-- The fund-count comparator, as a proposition. -/
theorem byFundCountLe_iff (a b : CompanyData) :
    byFundCountLe a b = true ↔
      b.fund_count < a.fund_count ∨
        (a.fund_count = b.fund_count ∧ b.total_weight ≤ a.total_weight) := by
  simp [byFundCountLe]

/-- The total-weight comparator, as a proposition. -/
theorem byTotalWeightLe_iff (a b : CompanyData) :
    byTotalWeightLe a b = true ↔
      b.total_weight < a.total_weight ∨
        (a.total_weight = b.total_weight ∧ b.fund_count ≤ a.fund_count) := by
  simp [byTotalWeightLe]

/-- The fund-count comparator is transitive. -/
theorem byFundCountLe_trans (a b c : CompanyData) (hab : byFundCountLe a b = true)
    (hbc : byFundCountLe b c = true) : byFundCountLe a c = true := by
  rw [byFundCountLe_iff] at *
  rcases hab with h1 | ⟨h1, h1w⟩ <;> rcases hbc with h2 | ⟨h2, h2w⟩
  · exact Or.inl (lt_trans h2 h1)
  · exact Or.inl (h2 ▸ h1)
  · exact Or.inl (by omega)
  · exact Or.inr ⟨h1.trans h2, le_trans h2w h1w⟩

/-- The fund-count comparator is total. -/
theorem byFundCountLe_total (a b : CompanyData) :
    (byFundCountLe a b || byFundCountLe b a) = true := by
  rw [Bool.or_eq_true, byFundCountLe_iff, byFundCountLe_iff]
  rcases Nat.lt_trichotomy a.fund_count b.fund_count with h | h | h
  · exact Or.inr (Or.inl h)
  · rcases le_total b.total_weight a.total_weight with hw | hw
    · exact Or.inl (Or.inr ⟨h, hw⟩)
    · exact Or.inr (Or.inr ⟨h.symm, hw⟩)
  · exact Or.inl (Or.inl h)

/-- The total-weight comparator is transitive. -/
theorem byTotalWeightLe_trans (a b c : CompanyData) (hab : byTotalWeightLe a b = true)
    (hbc : byTotalWeightLe b c = true) : byTotalWeightLe a c = true := by
  rw [byTotalWeightLe_iff] at *
  rcases hab with h1 | ⟨h1, h1w⟩ <;> rcases hbc with h2 | ⟨h2, h2w⟩
  · exact Or.inl (lt_trans h2 h1)
  · exact Or.inl (h2 ▸ h1)
  · exact Or.inl (h1 ▸ h2)
  · exact Or.inr ⟨h1.trans h2, le_trans h2w h1w⟩

/-- The total-weight comparator is total. -/
theorem byTotalWeightLe_total (a b : CompanyData) :
    (byTotalWeightLe a b || byTotalWeightLe b a) = true := by
  rw [Bool.or_eq_true, byTotalWeightLe_iff, byTotalWeightLe_iff]
  rcases lt_trichotomy a.total_weight b.total_weight with h | h | h
  · exact Or.inr (Or.inl h)
  · rcases le_total b.fund_count a.fund_count with hw | hw
    · exact Or.inl (Or.inr ⟨h, hw⟩)
    · exact Or.inr (Or.inr ⟨h.symm, hw⟩)
  · exact Or.inl (Or.inl h)

/-- C6 (amended): `top_by_fund_count` is a permutation of the companies
sorted ascending by the key `(-fund_count, -total_weight)` and
`top_by_total_weight` by `(-total_weight, -fund_count)`; there is no
name component in either key, so ties on both metrics keep the stable
input (dict insertion) order rather than name order. -/
theorem C6_sort_companies_by_criteria_sorted (companies : List CompanyData) :
    (List.Sorted (fun a b : CompanyData =>
          b.fund_count < a.fund_count ∨
            (a.fund_count = b.fund_count ∧ b.total_weight ≤ a.total_weight))
        (sort_companies_by_criteria companies .fund_count) ∧
      (sort_companies_by_criteria companies .fund_count).Perm companies) ∧
    (List.Sorted (fun a b : CompanyData =>
          b.total_weight < a.total_weight ∨
            (a.total_weight = b.total_weight ∧ b.fund_count ≤ a.fund_count))
        (sort_companies_by_criteria companies .total_weight) ∧
      (sort_companies_by_criteria companies .total_weight).Perm companies) := by
  refine ⟨⟨?_, ?_⟩, ?_, ?_⟩
  · exact List.Pairwise.imp (fun hab => (byFundCountLe_iff _ _).1 hab)
      (List.sorted_mergeSort byFundCountLe_trans byFundCountLe_total companies)
  · exact List.mergeSort_perm companies byFundCountLe
  · exact List.Pairwise.imp (fun hab => (byTotalWeightLe_iff _ _).1 hab)
      (List.sorted_mergeSort byTotalWeightLe_trans byTotalWeightLe_total companies)
  · exact List.mergeSort_perm companies byTotalWeightLe

/-- C6 (counterexample): two companies tied on both metrics come out in
input order, not name order — the sort key has no name component. -/
theorem C6_name_tiebreak_counterexample :
    sort_companies_by_criteria
        [{ name := "B", fund_count := 1, total_weight := 5, average_weight := 5,
           sample_funds := [] },
         { name := "A", fund_count := 1, total_weight := 5, average_weight := 5,
           sample_funds := [] }] .fund_count =
      [{ name := "B", fund_count := 1, total_weight := 5, average_weight := 5,
         sample_funds := [] },
       { name := "A", fund_count := 1, total_weight := 5, average_weight := 5,
         sample_funds := [] }] ∧
    sort_companies_by_criteria
        [{ name := "B", fund_count := 1, total_weight := 5, average_weight := 5,
           sample_funds := [] },
         { name := "A", fund_count := 1, total_weight := 5, average_weight := 5,
           sample_funds := [] }] .total_weight =
      [{ name := "B", fund_count := 1, total_weight := 5, average_weight := 5,
         sample_funds := [] },
       { name := "A", fund_count := 1, total_weight := 5, average_weight := 5,
         sample_funds := [] }] ∧
    ("A" : String) < "B" := by
  refine ⟨?_, ?_, ?_⟩
  · simp [sort_companies_by_criteria, List.mergeSort, List.merge, byFundCountLe]
  · simp [sort_companies_by_criteria, List.mergeSort, List.merge, byTotalWeightLe]
  · rw [String.lt_iff_toList_lt]
    decide

/-- Rounding zero gives zero. -/
theorem pyRoundHalfEven_zero : pyRoundHalfEven 0 = 0 := by
  norm_num [pyRoundHalfEven]

/-- Rounding zero to any number of places gives zero. -/
theorem pyRound_zero (nd : Nat) : pyRound 0 nd = 0 := by
  unfold pyRound
  rw [zero_mul, pyRoundHalfEven_zero]
  norm_num

/-- C9: in the portfolio output builder, each company's `percentage`
equals `round(amount / total_value * 100, 2)` when `total_value > 0` and
is exactly 0 otherwise (in particular when `total_value == 0`); the
division is guarded by the `total_value > 0` conditional, so the
division-by-zero branch is never taken. -/
theorem C9_percentage_division_guarded (company_amounts : List (String × Rat))
    (company_sources : String → List (String × Rat)) (total_value : Rat) :
    ((build_company_allocations company_amounts company_sources total_value).zip
        company_amounts).all
        (fun x => x.1.percentage ==
          (if 0 < total_value then pyRound (x.2.2 / total_value * 100) 2 else 0)) ∧
      (build_company_allocations company_amounts company_sources 0).all
        (fun ca => ca.percentage == 0) := by
  constructor
  · induction company_amounts with
    | nil => rfl
    | cons p rest ih =>
      simp only [build_company_allocations, List.map_cons, List.zip_cons_cons,
        List.all_cons] at ih ⊢
      rw [Bool.and_eq_true]
      refine ⟨?_, ih⟩
      rw [beq_iff_eq]
      show format_percentage (if 0 < total_value then p.2 / total_value * 100 else 0) = _
      by_cases h0 : 0 < total_value
      · rw [if_pos h0, if_pos h0]
        rfl
      · rw [if_neg h0, if_neg h0]
        exact pyRound_zero 2
  · rw [List.all_eq_true]
    intro ca hca
    simp only [build_company_allocations, List.mem_map] at hca
    obtain ⟨p, hp, rfl⟩ := hca
    rw [beq_iff_eq]
    show format_percentage (if (0 : Rat) < 0 then p.2 / 0 * 100 else 0) = 0
    rw [if_neg (lt_irrefl 0)]
    exact pyRound_zero 2

/-- C4 (counterexample): with exclusion entry "LTD", the holding
"Foo Ltd" (positive weight, non-empty name) is dropped by the code even
though its normalized name "Foo" matches no exclusion entry — the claim
would keep it. -/
theorem C4_exclusion_on_raw_counterexample :
    processRawHolding ["LTD"]
        { company_name := "Foo Ltd", allocation_percentage := "5%", rank := 1 } = none ∧
      is_excluded_holding (normalize_company_name (pyStrip "Foo Ltd")) ["LTD"] = false ∧
      pyStrip "Foo Ltd" ≠ "" ∧ 0 < parse_percentage "5%" := by
  refine ⟨rfl, by decide, by decide, by decide⟩

/-- C4 (amended): the exclusion filter runs on the raw (stripped)
company name before normalization: a holding whose raw name matches an
exclusion entry is dropped, and a surviving holding (raw name not
matched, non-empty, positive parsed weight) is kept with the normalized
name applied afterwards. -/
theorem C4_exclusion_checked_on_raw_name (excluded : List String) (h : RawHolding) :
    (is_excluded_holding (pyStrip h.company_name) excluded = true →
        processRawHolding excluded h = none) ∧
      (is_excluded_holding (pyStrip h.company_name) excluded = false →
        pyStrip h.company_name ≠ "" →
        0 < parse_percentage h.allocation_percentage →
        processRawHolding excluded h =
          some { company_name := normalize_company_name (pyStrip h.company_name)
                 allocation_percentage := parse_percentage h.allocation_percentage
                 rank := h.rank }) := by
  constructor
  · intro hex
    simp [processRawHolding, hex]
  · intro hex hne hpos
    simp [processRawHolding, hex, hne, hpos]

theorem C4_exclusion_checked_on_raw_name_witness :
    processRawHolding ["LTD"]
        { company_name := "Bar Ltd", allocation_percentage := "5%", rank := 2 } = none ∧
      processRawHolding ["XYZ"]
          { company_name := "Baz Inc", allocation_percentage := "5%", rank := 3 } =
        some { company_name := normalize_company_name (pyStrip "Baz Inc")
               allocation_percentage := parse_percentage "5%"
               rank := 3 } :=
  ⟨(C4_exclusion_checked_on_raw_name ["LTD"]
      { company_name := "Bar Ltd", allocation_percentage := "5%", rank := 2 }).1 (by decide),
    (C4_exclusion_checked_on_raw_name ["XYZ"]
      { company_name := "Baz Inc", allocation_percentage := "5%", rank := 3 }).2
      (by decide) (by decide) (by decide)⟩

/-- `normalize_company_name`, with its let-chain spelled out. -/
theorem normalize_company_name_eq (s : String) :
    normalize_company_name s =
      if s = "" then s
      else if pyStripList (stripTrailingDotsSpaces
          (applySuffixPatterns (pyStripList s.data))) = [] then s
      else ⟨pyStripList (stripTrailingDotsSpaces
        (applySuffixPatterns (pyStripList s.data)))⟩ := rfl

/-- A name that is already trimmed and fixed by one suffix-stripping
pass is a fixed point of normalization. -/
theorem normalize_fixed_of_pass_fixed (y : String)
    (h1 : pyStripList y.data = y.data)
    (h2 : stripTrailingDotsSpaces (applySuffixPatterns (pyStripList y.data)) = y.data) :
    normalize_company_name y = y := by
  cases y with
  | mk d =>
    by_cases hempty : String.mk d = ""
    · rw [normalize_company_name_eq, if_pos hempty]
    · rw [normalize_company_name_eq, if_neg hempty, h2, h1]
      have hd : d ≠ [] := by
        intro hnil
        exact hempty (by rw [hnil])
      rw [if_neg hd]

/-- C5 (counterexample): normalization is not idempotent — each suffix
pattern is applied once, in a fixed order, so stacked suffixes in
reverse pattern order survive one application and are stripped by the
next ("X Limited Limited" → "X Limited" → "X"). -/
theorem C5_normalize_not_idempotent_counterexample :
    ¬ normalize_company_name (normalize_company_name "X Limited Limited") =
        normalize_company_name "X Limited Limited" := by decide

/-- C5 (amended): normalization is not idempotent in general — a second
application can strip a further suffix layer.  A sufficient (not
necessary: inputs that hit the empty-result fallback, such as " . ",
are also fixed points) condition for idempotence: any input whose
normalized form is already trimmed and is unchanged by one more
suffix-stripping-and-cleanup pass is a fixed point of a second
application. -/
theorem C5_normalize_idempotent_when_pass_fixed (x : String)
    (h1 : pyStripList (normalize_company_name x).data = (normalize_company_name x).data)
    (h2 : stripTrailingDotsSpaces
        (applySuffixPatterns (pyStripList (normalize_company_name x).data)) =
      (normalize_company_name x).data) :
    normalize_company_name (normalize_company_name x) = normalize_company_name x :=
  normalize_fixed_of_pass_fixed (normalize_company_name x) h1 h2

theorem C5_normalize_idempotent_when_pass_fixed_witness :
    normalize_company_name (normalize_company_name "TCS Ltd") =
      normalize_company_name "TCS Ltd" :=
  C5_normalize_idempotent_when_pass_fixed "TCS Ltd" (by decide) (by decide)

/-- C7 (counterexample): on "-5%" the code strips the `%` and parses
"-5", returning -5, while the claimed extraction of the first
`\d{1,3}(\.\d+)?` adjacent to a `%` (modelled by `specParsePercentage`,
whose pattern has no sign) yields 5. -/
theorem C7_parse_percentage_counterexample :
    parse_percentage "-5%" = -5 ∧ specParsePercentage "-5%" = 5 ∧ (-5 : Rat) ≠ 5 := by
  refine ⟨by decide, by decide, by decide⟩

/-- C7 (amended): `parse_percentage` deletes every `%` and whitespace
character and parses the remainder with Python `float` semantics (sign,
exponent, and more than three digits allowed), returning 0 when that
parse fails; it never raises. The claimed examples hold
(`mkRat 17 2 = 8.50`), but so do sign- and length-keeping cases the
claimed regex would reject. -/
theorem C7_parse_percentage_values :
    parse_percentage "8.50%" = mkRat 17 2 ∧ parse_percentage "" = 0 ∧
      parse_percentage "invalid%" = 0 ∧ parse_percentage "-5%" = -5 ∧
      parse_percentage "1234%" = 1234 ∧ parse_percentage "1e2%" = 100 := by
  refine ⟨by decide, by decide, by decide, by decide, by decide, by decide⟩

end MFA
